import Mathlib

set_option maxRecDepth 8192

/-!
Verification of the lookahead-buffered scanning primitives of the
`general-purpose-node-document` repository.

The development shallowly embeds the Rust source:
* `SourceBytes` (src/parser/iter.rs): a buffered pull-source over bytes,
  with `next` (pop the queue front, else pull the stream) and
  `buffer count` (extend the queue, return a view of the first `count` items).
* `SourceChars` (src/parser/iter.rs): a UTF-8 decoder over a byte source,
  with `next` (pull up to 4 bytes until a valid prefix forms) and
  `buffer count` (grow the byte window until it is valid UTF-8 with at
  least `count` characters).
* `Cursor`, `Selection`, `Scanner` (src/parser/lexer.rs).
* `Value` / `IntoInner` (src/value.rs).

Bytes are modelled as `Nat` (the code does no byte arithmetic), characters
as `Nat` code points, the pull stream as the `List Nat` of items it will
yield, and the `VecDeque` buffer as a `List Nat` holding the queue front
first.
-/

/-- Embeds `SourceBytes` (src/parser/iter.rs): `iter` is the sequence the
underlying iterator will still yield, `buffer` the `VecDeque` of items
already pulled but unconsumed, front first. -/
structure SourceBytes where
  iter : List Nat
  buffer : List Nat
deriving DecidableEq, Repr

namespace SourceBytes

/-- The abstract remaining stream: buffered items followed by unpulled ones. -/
def streamOf (s : SourceBytes) : List Nat :=
  s.buffer ++ s.iter

/-- Total number of items still obtainable from the source. -/
def totalLen (s : SourceBytes) : Nat :=
  (streamOf s).length

/-- Embeds `SourceBytes::next` (iter.rs:62-64):
`self.buffer.pop_front().or_else(|| self.iter.next())`. -/
def sbNext (s : SourceBytes) : Option (Nat × SourceBytes) :=
  match s.buffer with
  | b :: rest => some (b, { iter := s.iter, buffer := rest })
  | [] =>
    match s.iter with
    | b :: rest => some (b, { iter := rest, buffer := [] })
    | [] => none

/-- The queue-filling step of `SourceBytes::buffer` (iter.rs:74-77): if
fewer than `count` items are buffered, pull `count - len` more from the
iterator into the queue's back. -/
def sbExtend (count : Nat) (s : SourceBytes) : SourceBytes :=
  if s.buffer.length < count then
    { iter := s.iter.drop (count - s.buffer.length),
      buffer := s.buffer ++ s.iter.take (count - s.buffer.length) }
  else s

/-- Embeds `SourceBytes::buffer` (iter.rs:73-79): fill the queue with
`sbExtend`, then return `Some` of the first `count` buffered items
(`make_contiguous().get(0..count)`), which exists iff the queue now holds
at least `count` items. -/
def sbBuffer (count : Nat) (s : SourceBytes) : Option (List Nat) × SourceBytes :=
  if count ≤ (sbExtend count s).buffer.length then
    (some ((sbExtend count s).buffer.take count), sbExtend count s)
  else (none, sbExtend count s)

/-- Embeds `SourceBytes::look` (iter.rs:93-95). -/
def sbLook (count : Nat) (s : SourceBytes) : Option (List Nat) × SourceBytes :=
  sbBuffer count s

/-- Embeds `SourceBytes::peek` (iter.rs:89-91):
`self.buffer(1).and_then(|slice| slice.first().copied())`. -/
def sbPeek (s : SourceBytes) : Option Nat × SourceBytes :=
  match sbBuffer 1 s with
  | (some slice, s') => (slice.head?, s')
  | (none, s') => (none, s')

/-- Consume `n` items one at a time with `sbNext`, collecting the yielded
items and stopping early if the source is exhausted. -/
def sbNextN : Nat → SourceBytes → List Nat × SourceBytes
  | 0, s => ([], s)
  | n + 1, s =>
    match sbNext s with
    | none => ([], s)
    | some (b, s') =>
      let p := sbNextN n s'
      (b :: p.1, p.2)

theorem streamOf_eq_nil {s : SourceBytes} (h : streamOf s = []) :
    s.buffer = [] ∧ s.iter = [] := by
  unfold streamOf at h
  exact List.append_eq_nil.mp h

theorem sbNext_of_stream_nil {s : SourceBytes} (h : streamOf s = []) :
    sbNext s = none := by
  obtain ⟨hb, hi⟩ := streamOf_eq_nil h
  unfold sbNext
  rw [hb, hi]

theorem sbNext_of_stream_cons {s : SourceBytes} {x : Nat} {rest : List Nat}
    (h : streamOf s = x :: rest) :
    ∃ s', sbNext s = some (x, s') ∧ streamOf s' = rest := by
  unfold streamOf at h
  unfold sbNext
  cases hb : s.buffer with
  | cons b bs =>
    rw [hb] at h
    simp only [List.cons_append, List.cons.injEq] at h
    exact ⟨_, by rw [h.1], by simpa [streamOf] using h.2⟩
  | nil =>
    rw [hb] at h
    simp only [List.nil_append] at h
    rw [h]
    exact ⟨_, rfl, by simp [streamOf]⟩

theorem sbNextN_spec (n : Nat) (s : SourceBytes) :
    (sbNextN n s).1 = (streamOf s).take n ∧
      streamOf (sbNextN n s).2 = (streamOf s).drop n := by
  induction n generalizing s with
  | zero => simp [sbNextN]
  | succ n ih =>
    cases hst : streamOf s with
    | nil =>
      have hn := sbNext_of_stream_nil hst
      simp [sbNextN, hn, hst]
    | cons x rest =>
      obtain ⟨s', hs', hstream⟩ := sbNext_of_stream_cons hst
      have := ih s'
      rw [hstream] at this
      simp [sbNextN, hs', hst, this.1, this.2]

theorem sbExtend_buffer (n : Nat) (s : SourceBytes) :
    (sbExtend n s).buffer = (streamOf s).take (max n s.buffer.length) := by
  unfold sbExtend streamOf
  split
  · next h =>
    have hmax : max n s.buffer.length = n := Nat.max_eq_left (Nat.le_of_lt h)
    rw [hmax]
    simp only [List.take_append_eq_append_take]
    rw [List.take_of_length_le (Nat.le_of_lt h)]
  · next h =>
    have hlen : n ≤ s.buffer.length := Nat.le_of_not_lt h
    have hmax : max n s.buffer.length = s.buffer.length := Nat.max_eq_right hlen
    rw [hmax]
    simp [List.take_append_eq_append_take, List.take_of_length_le (Nat.le_refl _)]

theorem sbExtend_stream (n : Nat) (s : SourceBytes) :
    streamOf (sbExtend n s) = streamOf s := by
  unfold sbExtend streamOf
  split
  · simp
  · rfl

theorem sbExtend_buffer_length (n : Nat) (s : SourceBytes) :
    (sbExtend n s).buffer.length = min (max n s.buffer.length) (totalLen s) := by
  rw [sbExtend_buffer, List.length_take, totalLen]

theorem sbBuffer_snd (n : Nat) (s : SourceBytes) :
    (sbBuffer n s).2 = sbExtend n s := by
  unfold sbBuffer
  split <;> rfl

theorem sbBuffer_stream (n : Nat) (s : SourceBytes) :
    streamOf (sbBuffer n s).2 = streamOf s := by
  rw [sbBuffer_snd, sbExtend_stream]

theorem sbBuffer_fst_of_le {n : Nat} {s : SourceBytes} (h : n ≤ totalLen s) :
    (sbBuffer n s).1 = some ((streamOf s).take n) := by
  unfold sbBuffer
  have hlen : n ≤ (sbExtend n s).buffer.length := by
    rw [sbExtend_buffer_length]
    exact Nat.le_min.mpr ⟨Nat.le_max_left _ _, h⟩
  simp only [hlen, if_pos]
  rw [sbExtend_buffer, List.take_take, Nat.min_eq_left (Nat.le_max_left _ _)]

theorem sbBuffer_fst_of_gt {n : Nat} {s : SourceBytes} (h : totalLen s < n) :
    (sbBuffer n s).1 = none := by
  unfold sbBuffer
  have hlen : (sbExtend n s).buffer.length < n := by
    rw [sbExtend_buffer_length]
    exact Nat.lt_of_le_of_lt (Nat.min_le_right _ _) h
  rw [if_neg (Nat.not_le.mpr hlen)]

theorem sbBuffer_of_buffer_le {n : Nat} {s : SourceBytes} (h : n ≤ s.buffer.length) :
    sbBuffer n s = (some (s.buffer.take n), s) := by
  have hext : sbExtend n s = s := by
    unfold sbExtend
    rw [if_neg (Nat.not_lt.mpr h)]
  unfold sbBuffer
  rw [hext, if_pos h]

theorem sbBuffer_buffer_of_le {n : Nat} {s : SourceBytes} (h : n ≤ totalLen s) :
    n ≤ (sbBuffer n s).2.buffer.length := by
  rw [sbBuffer_snd, sbExtend_buffer_length]
  exact Nat.le_min.mpr ⟨Nat.le_max_left _ _, h⟩

theorem sbBuffer_fst_eq_take {n : Nat} {s : SourceBytes} (h : n ≤ totalLen s) :
    (sbBuffer n s).1 = some ((sbBuffer n s).2.buffer.take n) := by
  rw [sbBuffer_fst_of_le h, sbBuffer_snd, sbExtend_buffer, List.take_take,
    Nat.min_eq_left (Nat.le_max_left _ _)]

theorem sbBuffer_succeeds_iff (n : Nat) (s : SourceBytes) :
    (sbBuffer n s).1.isSome = true ↔ n ≤ totalLen s := by
  constructor
  · intro h
    by_contra hc
    rw [sbBuffer_fst_of_gt (Nat.lt_of_not_le hc)] at h
    simp at h
  · intro h
    rw [sbBuffer_fst_of_le h]
    rfl

end SourceBytes

/-! ## UTF-8

`std::str::from_utf8` validates byte sequences against the standard UTF-8
table (RFC 3629): 1-byte `00..7F`; 2-byte lead `C2..DF`; 3-byte lead
`E0..EF` with a restricted first continuation for `E0` (`A0..BF`) and `ED`
(`80..9F`, excluding surrogates); 4-byte lead `F0..F4` with a restricted
first continuation for `F0` (`90..BF`) and `F4` (`80..8F`); all other
continuations `80..BF`. We embed this as a decoder on `List Nat`. -/

/-- Lower bound of the first continuation byte after a 3-byte lead. -/
def cont3Lo (b : Nat) : Nat := if b = 0xE0 then 0xA0 else 0x80

/-- Upper bound (exclusive) of the first continuation byte after a 3-byte lead. -/
def cont3Hi (b : Nat) : Nat := if b = 0xED then 0xA0 else 0xC0

/-- Lower bound of the first continuation byte after a 4-byte lead. -/
def cont4Lo (b : Nat) : Nat := if b = 0xF0 then 0x90 else 0x80

/-- Upper bound (exclusive) of the first continuation byte after a 4-byte lead. -/
def cont4Hi (b : Nat) : Nat := if b = 0xF4 then 0x90 else 0xC0

/-- Decode the first scalar value of a byte list, returning it with the
remaining bytes, or `none` when no complete valid sequence starts the list.
This is the per-character step of `std::str::from_utf8` validation plus
`str::chars` decoding. -/
def utf8DecodeOne : List Nat → Option (Nat × List Nat)
  | [] => none
  | b :: rest =>
    if b < 0x80 then some (b, rest)
    else if b < 0xC2 then none
    else if b < 0xE0 then
      match rest with
      | c1 :: rest' =>
        if 0x80 ≤ c1 ∧ c1 < 0xC0 then some ((b - 0xC0) * 64 + (c1 - 0x80), rest')
        else none
      | [] => none
    else if b < 0xF0 then
      match rest with
      | c1 :: c2 :: rest' =>
        if cont3Lo b ≤ c1 ∧ c1 < cont3Hi b ∧ 0x80 ≤ c2 ∧ c2 < 0xC0 then
          some ((b - 0xE0) * 4096 + (c1 - 0x80) * 64 + (c2 - 0x80), rest')
        else none
      | _ => none
    else if b < 0xF5 then
      match rest with
      | c1 :: c2 :: c3 :: rest' =>
        if cont4Lo b ≤ c1 ∧ c1 < cont4Hi b ∧ 0x80 ≤ c2 ∧ c2 < 0xC0 ∧
            0x80 ≤ c3 ∧ c3 < 0xC0 then
          some ((b - 0xF0) * 0x40000 + (c1 - 0x80) * 4096 + (c2 - 0x80) * 64
            + (c3 - 0x80), rest')
        else none
      | _ => none
    else none

/-- Decode a whole byte list to its scalar values, `none` when any part is
invalid; the fuel bounds the number of characters (each consumes at least
one byte, so `bs.length` is enough). -/
def utf8DecodeList : Nat → List Nat → Option (List Nat)
  | _, [] => some []
  | 0, _ :: _ => none
  | fuel + 1, bs =>
    match utf8DecodeOne bs with
    | none => none
    | some (c, rest) => (utf8DecodeList fuel rest).map (c :: ·)

/-- Embeds `std::str::from_utf8` followed by `str::chars`: `some` of the
decoded scalar values when the whole list is valid UTF-8, else `none`. -/
def utf8DecodeFull (bs : List Nat) : Option (List Nat) :=
  utf8DecodeList bs.length bs

/-- A Unicode scalar value: a code point outside the surrogate range. -/
def ValidScalar (c : Nat) : Prop :=
  c < 0x110000 ∧ (c < 0xD800 ∨ 0xE000 ≤ c)

instance (c : Nat) : Decidable (ValidScalar c) := by
  unfold ValidScalar
  infer_instance

/-- The standard UTF-8 encoding of one scalar value
(`char::encode_utf8`). -/
def utf8EncodeChar (c : Nat) : List Nat :=
  if c < 0x80 then [c]
  else if c < 0x800 then [0xC0 + c / 64, 0x80 + c % 64]
  else if c < 0x10000 then
    [0xE0 + c / 4096, 0x80 + c / 64 % 64, 0x80 + c % 64]
  else
    [0xF0 + c / 0x40000, 0x80 + c / 4096 % 64, 0x80 + c / 64 % 64, 0x80 + c % 64]

/-- UTF-8 encoding of a sequence of scalar values. -/
def utf8Encode : List Nat → List Nat
  | [] => []
  | c :: cs => utf8EncodeChar c ++ utf8Encode cs

theorem utf8EncodeChar_ne_nil (c : Nat) : utf8EncodeChar c ≠ [] := by
  unfold utf8EncodeChar
  split_ifs <;> simp

theorem utf8DecodeOne_encode {c : Nat} (h : ValidScalar c) (rest : List Nat) :
    utf8DecodeOne (utf8EncodeChar c ++ rest) = some (c, rest) := by
  obtain ⟨h1, h2⟩ := h
  unfold utf8EncodeChar
  split_ifs with hc1 hc2 hc3
  · simp only [List.cons_append, List.nil_append, utf8DecodeOne]
    rw [if_pos hc1]
  · simp only [List.cons_append, List.nil_append, utf8DecodeOne]
    rw [if_neg (by omega), if_neg (by omega), if_pos (by omega),
      if_pos (by constructor <;> omega)]
    simp only [Option.some.injEq, Prod.mk.injEq]
    exact ⟨by omega, by trivial⟩
  · simp only [List.cons_append, List.nil_append, utf8DecodeOne]
    rw [if_neg (by omega), if_neg (by omega), if_neg (by omega), if_pos (by omega),
      if_pos ?side]
    case side =>
      unfold cont3Lo cont3Hi
      split_ifs <;> (constructor <;> [omega; constructor <;> [omega; constructor <;> omega]])
    simp only [Option.some.injEq, Prod.mk.injEq]
    exact ⟨by omega, by trivial⟩
  · simp only [List.cons_append, List.nil_append, utf8DecodeOne]
    rw [if_neg (by omega), if_neg (by omega), if_neg (by omega), if_neg (by omega),
      if_pos (by omega), if_pos ?side]
    case side =>
      unfold cont4Lo cont4Hi
      split_ifs <;>
        (refine ⟨by omega, by omega, by omega, by omega, by omega, by omega⟩)
    simp only [Option.some.injEq, Prod.mk.injEq]
    exact ⟨by omega, by trivial⟩

theorem utf8DecodeFull_nil : utf8DecodeFull [] = some [] := rfl

theorem utf8DecodeFull_of_one_none {bs : List Nat} (hne : bs ≠ [])
    (h : utf8DecodeOne bs = none) :
    utf8DecodeFull bs = none := by
  cases bs with
  | nil => exact absurd rfl hne
  | cons b t => simp [utf8DecodeFull, utf8DecodeList, h]

theorem utf8DecodeFull_of_one_single {bs : List Nat} {c : Nat}
    (h : utf8DecodeOne bs = some (c, [])) :
    utf8DecodeFull bs = some [c] := by
  cases bs with
  | nil => simp [utf8DecodeOne] at h
  | cons b t => simp [utf8DecodeFull, utf8DecodeList, h]

theorem utf8EncodeChar_ascii {c : Nat} (h : c < 0x80) : utf8EncodeChar c = [c] := by
  unfold utf8EncodeChar
  rw [if_pos h]

theorem utf8EncodeChar_two {c : Nat} (hlo : 0x80 ≤ c) (hhi : c < 0x800) :
    utf8EncodeChar c = [0xC0 + c / 64, 0x80 + c % 64] := by
  unfold utf8EncodeChar
  rw [if_neg (by omega), if_pos hhi]

theorem utf8EncodeChar_three {c : Nat} (hlo : 0x800 ≤ c) (hhi : c < 0x10000) :
    utf8EncodeChar c = [0xE0 + c / 4096, 0x80 + c / 64 % 64, 0x80 + c % 64] := by
  unfold utf8EncodeChar
  rw [if_neg (by omega), if_neg (by omega), if_pos hhi]

theorem utf8EncodeChar_four {c : Nat} (hlo : 0x10000 ≤ c) :
    utf8EncodeChar c =
      [0xF0 + c / 0x40000, 0x80 + c / 4096 % 64, 0x80 + c / 64 % 64, 0x80 + c % 64] := by
  unfold utf8EncodeChar
  rw [if_neg (by omega), if_neg (by omega), if_neg (by omega)]

theorem utf8DecodeOne_two_cut {c : Nat} (hlo : 0x80 ≤ c) (hhi : c < 0x800) :
    utf8DecodeOne [0xC0 + c / 64] = none := by
  simp only [utf8DecodeOne]
  rw [if_neg (by omega), if_neg (by omega), if_pos (by omega)]

theorem utf8DecodeOne_three_cut1 {c : Nat} (hlo : 0x800 ≤ c) (hhi : c < 0x10000) :
    utf8DecodeOne [0xE0 + c / 4096] = none := by
  simp only [utf8DecodeOne]
  rw [if_neg (by omega), if_neg (by omega), if_neg (by omega), if_pos (by omega)]

theorem utf8DecodeOne_three_cut2 {c : Nat} (hlo : 0x800 ≤ c) (hhi : c < 0x10000) :
    utf8DecodeOne [0xE0 + c / 4096, 0x80 + c / 64 % 64] = none := by
  simp only [utf8DecodeOne]
  rw [if_neg (by omega), if_neg (by omega), if_neg (by omega), if_pos (by omega)]

theorem utf8DecodeOne_four_cut1 {c : Nat} (hlo : 0x10000 ≤ c) (hhi : c < 0x110000) :
    utf8DecodeOne [0xF0 + c / 0x40000] = none := by
  simp only [utf8DecodeOne]
  rw [if_neg (by omega), if_neg (by omega), if_neg (by omega), if_neg (by omega),
    if_pos (by omega)]

theorem utf8DecodeOne_four_cut2 {c : Nat} (hlo : 0x10000 ≤ c) (hhi : c < 0x110000) :
    utf8DecodeOne [0xF0 + c / 0x40000, 0x80 + c / 4096 % 64] = none := by
  simp only [utf8DecodeOne]
  rw [if_neg (by omega), if_neg (by omega), if_neg (by omega), if_neg (by omega),
    if_pos (by omega)]

theorem utf8DecodeOne_four_cut3 {c : Nat} (hlo : 0x10000 ≤ c) (hhi : c < 0x110000) :
    utf8DecodeOne [0xF0 + c / 0x40000, 0x80 + c / 4096 % 64, 0x80 + c / 64 % 64] = none := by
  simp only [utf8DecodeOne]
  rw [if_neg (by omega), if_neg (by omega), if_neg (by omega), if_neg (by omega),
    if_pos (by omega)]

/-! ## SourceChars

`SourceChars` (src/parser/iter.rs:98-186) wraps a byte source. Over a
`&mut SourceBytes` it supports both `Iterator::next` (iter.rs:121-131) and
`Buffered::buffer` (iter.rs:142-168); the state is the wrapped
`SourceBytes`. -/

open SourceBytes

/-- The loop body of `SourceChars::next` (iter.rs:121-131): pull one byte
at a time from the byte source (at most 4 in total, tracked by `fuel`),
append it to the accumulator `acc`, and as soon as the accumulated bytes
form valid UTF-8 return its first character; exhausting the source or the
4-byte budget yields `none`. -/
def scNextAux : List Nat → Nat → SourceBytes → Option Nat × SourceBytes
  | _, 0, s => (none, s)
  | acc, fuel + 1, s =>
    match sbNext s with
    | none => (none, s)
    | some (b, s') =>
      match utf8DecodeFull (acc ++ [b]) with
      | some (c :: _) => (some c, s')
      | some [] => (none, s')
      | none => scNextAux (acc ++ [b]) fuel s'

/-- Embeds `SourceChars::next` (iter.rs:121-131). -/
def scNext (s : SourceBytes) : Option Nat × SourceBytes :=
  scNextAux [] 4 s

/-- Repeatedly call `scNext` (at most `fuel` times), collecting the decoded
characters until the decoder yields nothing. -/
def scDrain : Nat → SourceBytes → List Nat
  | 0, _ => []
  | fuel + 1, s =>
    match scNext s with
    | (some c, s') => c :: scDrain fuel s'
    | (none, _) => []

/-- The loop of `SourceChars::buffer` (iter.rs:142-168): try successively
larger byte windows (`byteCount`) against the byte layer's `buffer`; if the
byte layer fails, yield `none` (the `?` operator); if the window is valid
UTF-8 with at least `count` characters, return it. The fuel is an upper
bound on the number of iterations; `totalLen s + 2` is always enough, since
the byte layer fails as soon as the window exceeds the stream. -/
def scBufferAux (count : Nat) : Nat → Nat → SourceBytes → Option (List Nat) × SourceBytes
  | _, 0, s => (none, s)
  | byteCount, fuel + 1, s =>
    match sbBuffer byteCount s with
    | (none, s') => (none, s')
    | (some buf, s') =>
      match utf8DecodeFull buf with
      | some cps =>
        if count ≤ cps.length then (some buf, s')
        else scBufferAux count (byteCount + 1) fuel s'
      | none => scBufferAux count (byteCount + 1) fuel s'

/-- Embeds `SourceChars::buffer` (iter.rs:142-168); the returned window is
the byte window of the `&str` view. -/
def scBuffer (count : Nat) (s : SourceBytes) : Option (List Nat) × SourceBytes :=
  scBufferAux count 0 (totalLen s + 2) s

/-- Embeds `SourceChars::look` (iter.rs:183-185). -/
def scLook (count : Nat) (s : SourceBytes) : Option (List Nat) × SourceBytes :=
  scBuffer count s

/-- Decoding one character from a stream that starts with the encoding of a
valid scalar value consumes exactly that encoding and yields that scalar. -/
theorem scNext_encode {c : Nat} (h : ValidScalar c) {s : SourceBytes} {rest : List Nat}
    (hs : streamOf s = utf8EncodeChar c ++ rest) :
    ∃ s', scNext s = (some c, s') ∧ streamOf s' = rest := by
  have hv := h
  obtain ⟨h1, h2⟩ := h
  rcases Nat.lt_or_ge c 0x80 with hc | hc
  · rw [utf8EncodeChar_ascii hc, List.singleton_append] at hs
    obtain ⟨s1, hn1, hs1⟩ := sbNext_of_stream_cons hs
    refine ⟨s1, ?_, hs1⟩
    have hdec : utf8DecodeFull [c] = some [c] :=
      utf8DecodeFull_of_one_single (by
        have := utf8DecodeOne_encode hv ([] : List Nat)
        rwa [utf8EncodeChar_ascii hc, List.singleton_append] at this)
    unfold scNext scNextAux
    rw [hn1]
    simp [hdec]
  · rcases Nat.lt_or_ge c 0x800 with hc2 | hc2
    · rw [utf8EncodeChar_two hc hc2] at hs
      simp only [List.cons_append, List.nil_append] at hs
      obtain ⟨s1, hn1, hs1⟩ := sbNext_of_stream_cons hs
      obtain ⟨s2, hn2, hs2⟩ := sbNext_of_stream_cons hs1
      refine ⟨s2, ?_, hs2⟩
      have hcut : utf8DecodeFull [0xC0 + c / 64] = none :=
        utf8DecodeFull_of_one_none (by simp) (utf8DecodeOne_two_cut hc hc2)
      have hdec : utf8DecodeFull [0xC0 + c / 64, 0x80 + c % 64] = some [c] :=
        utf8DecodeFull_of_one_single (by
          have := utf8DecodeOne_encode hv ([] : List Nat)
          rwa [utf8EncodeChar_two hc hc2, List.append_nil] at this)
      unfold scNext scNextAux
      rw [hn1]
      simp only [List.nil_append, hcut]
      unfold scNextAux
      rw [hn2]
      simp [hdec]
    · rcases Nat.lt_or_ge c 0x10000 with hc3 | hc3
      · rw [utf8EncodeChar_three hc2 hc3] at hs
        simp only [List.cons_append, List.nil_append] at hs
        obtain ⟨s1, hn1, hs1⟩ := sbNext_of_stream_cons hs
        obtain ⟨s2, hn2, hs2⟩ := sbNext_of_stream_cons hs1
        obtain ⟨s3, hn3, hs3⟩ := sbNext_of_stream_cons hs2
        refine ⟨s3, ?_, hs3⟩
        have hcut1 : utf8DecodeFull [0xE0 + c / 4096] = none :=
          utf8DecodeFull_of_one_none (by simp) (utf8DecodeOne_three_cut1 hc2 hc3)
        have hcut2 : utf8DecodeFull [0xE0 + c / 4096, 0x80 + c / 64 % 64] = none :=
          utf8DecodeFull_of_one_none (by simp) (utf8DecodeOne_three_cut2 hc2 hc3)
        have hdec : utf8DecodeFull
            [0xE0 + c / 4096, 0x80 + c / 64 % 64, 0x80 + c % 64] = some [c] :=
          utf8DecodeFull_of_one_single (by
            have := utf8DecodeOne_encode hv ([] : List Nat)
            rwa [utf8EncodeChar_three hc2 hc3, List.append_nil] at this)
        unfold scNext scNextAux
        rw [hn1]
        simp only [List.nil_append, hcut1]
        unfold scNextAux
        rw [hn2]
        simp only [List.cons_append, List.nil_append, hcut2]
        unfold scNextAux
        rw [hn3]
        simp [hdec]
      · rw [utf8EncodeChar_four hc3] at hs
        simp only [List.cons_append, List.nil_append] at hs
        obtain ⟨s1, hn1, hs1⟩ := sbNext_of_stream_cons hs
        obtain ⟨s2, hn2, hs2⟩ := sbNext_of_stream_cons hs1
        obtain ⟨s3, hn3, hs3⟩ := sbNext_of_stream_cons hs2
        obtain ⟨s4, hn4, hs4⟩ := sbNext_of_stream_cons hs3
        refine ⟨s4, ?_, hs4⟩
        have hcut1 : utf8DecodeFull [0xF0 + c / 0x40000] = none :=
          utf8DecodeFull_of_one_none (by simp) (utf8DecodeOne_four_cut1 hc3 h1)
        have hcut2 : utf8DecodeFull [0xF0 + c / 0x40000, 0x80 + c / 4096 % 64] = none :=
          utf8DecodeFull_of_one_none (by simp) (utf8DecodeOne_four_cut2 hc3 h1)
        have hcut3 : utf8DecodeFull
            [0xF0 + c / 0x40000, 0x80 + c / 4096 % 64, 0x80 + c / 64 % 64] = none :=
          utf8DecodeFull_of_one_none (by simp) (utf8DecodeOne_four_cut3 hc3 h1)
        have hdec : utf8DecodeFull
            [0xF0 + c / 0x40000, 0x80 + c / 4096 % 64, 0x80 + c / 64 % 64,
              0x80 + c % 64] = some [c] :=
          utf8DecodeFull_of_one_single (by
            have := utf8DecodeOne_encode hv ([] : List Nat)
            rwa [utf8EncodeChar_four hc3, List.append_nil] at this)
        unfold scNext scNextAux
        rw [hn1]
        simp only [List.nil_append, hcut1]
        unfold scNextAux
        rw [hn2]
        simp only [List.cons_append, List.nil_append, hcut2]
        unfold scNextAux
        rw [hn3]
        simp only [List.cons_append, List.nil_append, hcut3]
        unfold scNextAux
        rw [hn4]
        simp [hdec]

theorem scNext_of_stream_nil {s : SourceBytes} (h : streamOf s = []) :
    scNext s = (none, s) := by
  unfold scNext scNextAux
  rw [sbNext_of_stream_nil h]

/-- Draining the decoder over the encoding of a sequence of valid scalar
values reproduces that sequence (with any fuel of at least one step per
character). -/
theorem scDrain_encode :
    ∀ (cs : List Nat) (fuel : Nat) (s : SourceBytes),
      (∀ c ∈ cs, ValidScalar c) → streamOf s = utf8Encode cs →
      cs.length ≤ fuel → scDrain fuel s = cs := by
  intro cs
  induction cs with
  | nil =>
    intro fuel s _ hs _
    cases fuel with
    | zero => rfl
    | succ f =>
      have hnil : streamOf s = [] := by simpa [utf8Encode] using hs
      simp [scDrain, scNext_of_stream_nil hnil]
  | cons c cs ih =>
    intro fuel s hv hs hlen
    have hs' : streamOf s = utf8EncodeChar c ++ utf8Encode cs := by
      simpa [utf8Encode] using hs
    obtain ⟨s', hnext, hstream⟩ := scNext_encode (hv c (by simp)) hs'
    cases fuel with
    | zero => simp at hlen
    | succ f =>
      have : scDrain (f + 1) s = c :: scDrain f s' := by
        simp [scDrain, hnext]
      rw [this, ih f s' (fun x hx => hv x (by simp [hx])) hstream (by simp at hlen; omega)]

/-- A byte window of length `k` satisfies the `SourceChars::buffer` exit
test when it is valid UTF-8 and decodes to at least `count` characters. -/
def GoodWindow (count : Nat) (stream : List Nat) (k : Nat) : Prop :=
  ∃ cps, utf8DecodeFull (stream.take k) = some cps ∧ count ≤ cps.length

theorem scBufferAux_spec (count : Nat) :
    ∀ (fuel byteCount : Nat) (s : SourceBytes),
      totalLen s + 2 ≤ byteCount + fuel →
      (∀ k, k < byteCount → k ≤ totalLen s → ¬ GoodWindow count (streamOf s) k) →
      (∃ buf s' cps, scBufferAux count byteCount fuel s = (some buf, s') ∧
          utf8DecodeFull buf = some cps ∧ count ≤ cps.length) ∨
        ((scBufferAux count byteCount fuel s).1 = none ∧
          ∀ k ≤ totalLen s, ¬ GoodWindow count (streamOf s) k) := by
  intro fuel
  induction fuel with
  | zero =>
    intro byteCount s hfuel hprior
    refine Or.inr ⟨rfl, fun k hk => hprior k (by omega) hk⟩
  | succ fuel ih =>
    intro byteCount s hfuel hprior
    rcases hsb : sbBuffer byteCount s with ⟨r, s'⟩
    have hstream : streamOf s' = streamOf s := by
      have := sbBuffer_stream byteCount s
      rwa [hsb] at this
    have htotal : totalLen s' = totalLen s := by
      unfold totalLen
      rw [hstream]
    cases r with
    | none =>
      have hgt : totalLen s < byteCount := by
        by_contra hc
        have := sbBuffer_fst_of_le (Nat.le_of_not_lt hc)
        rw [hsb] at this
        simp at this
      refine Or.inr ⟨?_, fun k hk => hprior k (by omega) hk⟩
      simp [scBufferAux, hsb]
    | some buf =>
      have hle : byteCount ≤ totalLen s := by
        by_contra hc
        have := sbBuffer_fst_of_gt (Nat.lt_of_not_le hc)
        rw [hsb] at this
        simp at this
      have hbuf : buf = (streamOf s).take byteCount := by
        have := sbBuffer_fst_of_le hle
        rw [hsb] at this
        simpa using this
      rcases hdec : utf8DecodeFull buf with _ | cps
      · -- invalid window: recurse
        have hrec : scBufferAux count byteCount (fuel + 1) s =
            scBufferAux count (byteCount + 1) fuel s' := by
          simp [scBufferAux, hsb, hdec]
        rw [hrec]
        have hprior' : ∀ k, k < byteCount + 1 → k ≤ totalLen s' →
            ¬ GoodWindow count (streamOf s') k := by
          intro k hk hk2
          rw [hstream]
          rcases Nat.lt_or_ge k byteCount with h | h
          · exact hprior k h (by omega)
          · have : k = byteCount := by omega
            subst this
            intro ⟨cps', hcps', _⟩
            rw [← hbuf, hdec] at hcps'
            exact Option.noConfusion hcps'
        have := ih (byteCount + 1) s' (by omega) hprior'
        rw [hstream, htotal] at this
        exact this
      · rcases Nat.lt_or_ge cps.length count with hshort | hlong
        · -- too few characters: recurse
          have hrec : scBufferAux count byteCount (fuel + 1) s =
              scBufferAux count (byteCount + 1) fuel s' := by
            simp [scBufferAux, hsb, hdec, Nat.not_le.mpr hshort]
          rw [hrec]
          have hprior' : ∀ k, k < byteCount + 1 → k ≤ totalLen s' →
              ¬ GoodWindow count (streamOf s') k := by
            intro k hk hk2
            rw [hstream]
            rcases Nat.lt_or_ge k byteCount with h | h
            · exact hprior k h (by omega)
            · have : k = byteCount := by omega
              subst this
              intro ⟨cps', hcps', hlen'⟩
              rw [← hbuf, hdec] at hcps'
              have heq : cps = cps' := by simpa using hcps'
              rw [← heq] at hlen'
              omega
          have := ih (byteCount + 1) s' (by omega) hprior'
          rw [hstream, htotal] at this
          exact this
        · -- found a good window
          refine Or.inl ⟨buf, s', cps, ?_, hdec, hlong⟩
          simp [scBufferAux, hsb, hdec, hlong]

theorem scBufferAux_fuel_stable (count : Nat) :
    ∀ (fuel fuel' byteCount : Nat) (s : SourceBytes),
      totalLen s + 2 ≤ byteCount + fuel → 1 ≤ fuel →
      totalLen s + 2 ≤ byteCount + fuel' → 1 ≤ fuel' →
      scBufferAux count byteCount fuel s = scBufferAux count byteCount fuel' s := by
  intro fuel
  induction fuel with
  | zero => intro fuel' byteCount s _ h1; omega
  | succ fuel ih =>
    intro fuel' byteCount s hf _ hf' h1'
    cases fuel' with
    | zero => omega
    | succ fuel' =>
      rcases hsb : sbBuffer byteCount s with ⟨r, s'⟩
      have hstream : streamOf s' = streamOf s := by
        have := sbBuffer_stream byteCount s
        rwa [hsb] at this
      have htotal : totalLen s' = totalLen s := by
        unfold totalLen
        rw [hstream]
      cases r with
      | none => simp [scBufferAux, hsb]
      | some buf =>
        have hle : byteCount ≤ totalLen s := by
          by_contra hc
          have := sbBuffer_fst_of_gt (Nat.lt_of_not_le hc)
          rw [hsb] at this
          simp at this
        rcases hdec : utf8DecodeFull buf with _ | cps
        · have h2 : scBufferAux count byteCount (fuel + 1) s =
              scBufferAux count (byteCount + 1) fuel s' := by
            simp [scBufferAux, hsb, hdec]
          have h2' : scBufferAux count byteCount (fuel' + 1) s =
              scBufferAux count (byteCount + 1) fuel' s' := by
            simp [scBufferAux, hsb, hdec]
          rw [h2, h2']
          exact ih fuel' (byteCount + 1) s' (by omega) (by omega) (by omega) (by omega)
        · rcases Nat.lt_or_ge cps.length count with hshort | hlong
          · have h2 : scBufferAux count byteCount (fuel + 1) s =
                scBufferAux count (byteCount + 1) fuel s' := by
              simp [scBufferAux, hsb, hdec, Nat.not_le.mpr hshort]
            have h2' : scBufferAux count byteCount (fuel' + 1) s =
                scBufferAux count (byteCount + 1) fuel' s' := by
              simp [scBufferAux, hsb, hdec, Nat.not_le.mpr hshort]
            rw [h2, h2']
            exact ih fuel' (byteCount + 1) s' (by omega) (by omega) (by omega) (by omega)
          · simp [scBufferAux, hsb, hdec, hlong]

/-! ## Cursor, Selection, Scanner (src/parser/lexer.rs) -/

/-- Embeds `Cursor` (lexer.rs:3-11): `Index` is a bare position, `Char` a
position holding one character, `Slice` a position and a length. -/
inductive Cursor where
  | Index (index : Nat)
  | Char (index : Nat)
  | Slice (index : Nat) (length : Nat)
deriving DecidableEq, Repr

namespace Cursor

/-- Embeds `Cursor::new` (lexer.rs:14-16). -/
def new : Cursor := .Index 0

/-- Embeds `Cursor::index` (lexer.rs:20-24). -/
def index : Cursor → Nat
  | .Index i | .Char i | .Slice i _ => i

/-- Embeds `Cursor::len` (lexer.rs:28-34). -/
def len : Cursor → Nat
  | .Index _ => 0
  | .Char _ => 1
  | .Slice _ length => length

/-- Embeds `Cursor::is_empty` (lexer.rs:37-39). -/
def isEmpty : Cursor → Bool
  | .Index _ => true
  | .Slice _ 0 => true
  | _ => false

/-- Embeds `Cursor::advance` (lexer.rs:43-50). -/
def advance : Cursor → Cursor
  | .Index i => .Index i
  | .Char i => .Index (i + 1)
  | .Slice i length => .Index (i + length)

/-- Embeds `Cursor::extend` (lexer.rs:53-61). -/
def extend (c : Cursor) (count : Nat) : Cursor :=
  match c with
  | .Index i => if count = 1 then .Char i else .Slice i count
  | .Char i => .Slice i (1 + count)
  | .Slice i length => .Slice i (length + count)

end Cursor

/-- One call against a `Cursor`. -/
inductive CursorOp where
  | ext (count : Nat)
  | adv
deriving DecidableEq, Repr

/-- Apply one call to a cursor. -/
def applyOp (c : Cursor) : CursorOp → Cursor
  | .ext n => c.extend n
  | .adv => c.advance

/-- The cursor reached from `Cursor::new` by a sequence of calls. -/
def applyOps (ops : List CursorOp) : Cursor :=
  ops.foldl applyOp Cursor.new

/-- Embeds `Selection` (lexer.rs:64-75); the slice payload is the selected
characters. -/
inductive Selection where
  | Empty
  | Char (c : Char)
  | Slice (s : List Char)
  | EndOfFile
deriving DecidableEq, Repr

/-- Embeds `Scanner` (lexer.rs:121-128): a character source with absolute
positions, and the live cursor. -/
structure Scanner where
  source : List Char
  cursor : Cursor
deriving DecidableEq, Repr

namespace Scanner

/-- Embeds `Scanner::new` (lexer.rs:134-143). -/
def new (src : List Char) : Scanner :=
  { source := src, cursor := Cursor.new }

/-- Modelled from the spec: `Scanner::take` is commented out in
lexer.rs:183-186; §4.4 says it calls `Cursor.extend(count)`. -/
def take (sc : Scanner) (count : Nat) : Scanner :=
  { sc with cursor := sc.cursor.extend count }

/-- Modelled from the spec: `Scanner::selection` is commented out in
lexer.rs:164-181; §4.4 says it materializes the cursor's pending span
against the source — Empty for a bare index; the one item at the recorded
position for a single-item cursor (EndOfFile if the source is shorter);
the length-L span at the recorded position for a span cursor (EndOfFile if
fewer than L items are available there) — and then advances the cursor
regardless of outcome. -/
def selection (sc : Scanner) : Selection × Scanner :=
  let sel :=
    match sc.cursor with
    | .Index _ => Selection.Empty
    | .Char i =>
      match sc.source.drop i with
      | c :: _ => Selection.Char c
      | [] => Selection.EndOfFile
    | .Slice i length =>
      if i + length ≤ sc.source.length then
        Selection.Slice ((sc.source.drop i).take length)
      else Selection.EndOfFile
  (sel, { sc with cursor := sc.cursor.advance })

end Scanner

/-! ## Value and IntoInner (src/value.rs)

Numeric payloads are modelled as `Nat`/`Int` and float payloads as their
`Nat` bit patterns: the conversions under verification move payloads
without inspecting them, so the payload representation is immaterial.
`Cow<'_, str>` keeps its borrowed/owned distinction, which `IntoInner`
observes. -/

/-- Embeds `std::borrow::Cow<'_, str>` as stored inside `Value::String`. -/
inductive Cow where
  | borrowed (s : String)
  | owned (s : String)
deriving DecidableEq, Repr

/-- Embeds `Value` (value.rs:4-22). -/
inductive Value where
  | U8 (n : Nat)
  | U16 (n : Nat)
  | U32 (n : Nat)
  | U64 (n : Nat)
  | Uint (n : Nat)
  | I8 (n : Int)
  | I16 (n : Int)
  | I32 (n : Int)
  | I64 (n : Int)
  | Int (n : Int)
  | F32 (bits : Nat)
  | F64 (bits : Nat)
  | Bool (b : Bool)
  | String (s : Cow)
  | List (xs : List Value)
  | Null

/-- Abbreviation for the string type, usable inside the `Value` namespace
where `String` names a constructor. -/
abbrev Str := String

/-- Embeds `Value::kind` (value.rs:32-61): the variant's name. -/
def Value.kind : Value → Str
  | .U8 _ => "U8"
  | .U16 _ => "U16"
  | .U32 _ => "U32"
  | .U64 _ => "U64"
  | .Uint _ => "Uint"
  | .I8 _ => "I8"
  | .I16 _ => "I16"
  | .I32 _ => "I32"
  | .I64 _ => "I64"
  | .Int _ => "Int"
  | .F32 _ => "F32"
  | .F64 _ => "F64"
  | .Bool _ => "Bool"
  | .String _ => "String"
  | .List _ => "List"
  | .Null => "Null"

/-- Embeds `IntoInnerError` (value.rs:145-149). -/
structure IntoInnerError where
  variant : String
  intoType : String
deriving DecidableEq, Repr

/-- The target types that have both a `From` impl into `Value`
(value.rs:84-134) and an `IntoInner` impl out of it (value.rs:199-239):
the fixed-width and pointer-width integers, the floats, `bool`, `String`
(owned), `&str` (borrowed) and `Vec<Value>`. -/
inductive PrimTy where
  | u8 | u16 | u32 | u64 | uint
  | i8 | i16 | i32 | i64 | int
  | f32 | f64 | bool
  | string | borrowedStr | list
deriving DecidableEq, Repr

/-- The Lean carrier of each target type. -/
def PrimTy.carrier : PrimTy → Type
  | .u8 | .u16 | .u32 | .u64 | .uint => Nat
  | .i8 | .i16 | .i32 | .i64 | .int => Int
  | .f32 | .f64 => Nat
  | .bool => Bool
  | .string => String
  | .borrowedStr => String
  | .list => List Value

/-- The `Value` variant name a target type reads from
(`stringify!($variant)` in `impl_into_inner`, value.rs:167-215). -/
def PrimTy.variantName : PrimTy → String
  | .u8 => "U8"
  | .u16 => "U16"
  | .u32 => "U32"
  | .u64 => "U64"
  | .uint => "Uint"
  | .i8 => "I8"
  | .i16 => "I16"
  | .i32 => "I32"
  | .i64 => "I64"
  | .int => "Int"
  | .f32 => "F32"
  | .f64 => "F64"
  | .bool => "Bool"
  | .string => "String"
  | .borrowedStr => "String"
  | .list => "List"

/-- Embeds the `From` impls into `Value` (value.rs:84-134): `impl_from!`
for the numerics, `bool` and `Vec<Value>`; `From<String>` stores an owned
cow, `From<&str>` a borrowed one. -/
def Value.fromPrim : (t : PrimTy) → t.carrier → Value
  | .u8, n => .U8 n
  | .u16, n => .U16 n
  | .u32, n => .U32 n
  | .u64, n => .U64 n
  | .uint, n => .Uint n
  | .i8, n => .I8 n
  | .i16, n => .I16 n
  | .i32, n => .I32 n
  | .i64, n => .I64 n
  | .int, n => .Int n
  | .f32, n => .F32 n
  | .f64, n => .F64 n
  | .bool, b => .Bool b
  | .string, s => .String (.owned s)
  | .borrowedStr, s => .String (.borrowed s)
  | .list, xs => .List xs

/-- Embeds the `IntoInner` impls (value.rs:163-239): `impl_into_inner!`
matches the requested variant and otherwise errors with the stored
variant's kind; `IntoInner<String>` accepts only an owned cow
(value.rs:229-239) and `IntoInner<&str>` only a borrowed one
(value.rs:217-227). -/
def Value.intoInner : (t : PrimTy) → Value → Except IntoInnerError t.carrier
  | .u8, .U8 n => .ok n
  | .u8, v => .error ⟨v.kind, "u8"⟩
  | .u16, .U16 n => .ok n
  | .u16, v => .error ⟨v.kind, "u16"⟩
  | .u32, .U32 n => .ok n
  | .u32, v => .error ⟨v.kind, "u32"⟩
  | .u64, .U64 n => .ok n
  | .u64, v => .error ⟨v.kind, "u64"⟩
  | .uint, .Uint n => .ok n
  | .uint, v => .error ⟨v.kind, "usize"⟩
  | .i8, .I8 n => .ok n
  | .i8, v => .error ⟨v.kind, "i8"⟩
  | .i16, .I16 n => .ok n
  | .i16, v => .error ⟨v.kind, "i16"⟩
  | .i32, .I32 n => .ok n
  | .i32, v => .error ⟨v.kind, "i32"⟩
  | .i64, .I64 n => .ok n
  | .i64, v => .error ⟨v.kind, "i64"⟩
  | .int, .Int n => .ok n
  | .int, v => .error ⟨v.kind, "isize"⟩
  | .f32, .F32 n => .ok n
  | .f32, v => .error ⟨v.kind, "f32"⟩
  | .f64, .F64 n => .ok n
  | .f64, v => .error ⟨v.kind, "f64"⟩
  | .bool, .Bool b => .ok b
  | .bool, v => .error ⟨v.kind, "bool"⟩
  | .string, .String (.owned s) => .ok s
  | .string, v => .error ⟨v.kind, "String"⟩
  | .borrowedStr, .String (.borrowed s) => .ok s
  | .borrowedStr, v => .error ⟨v.kind, "&str"⟩
  | .list, .List xs => .ok xs
  | .list, v => .error ⟨v.kind, "Vec<Value>"⟩

/-- The amended success condition for `into_inner`: the stored variant must
match the requested type's variant, and for the two string-slice targets
the cow's ownership must additionally match (`String` requires owned,
`&str` requires borrowed). -/
def VariantAgrees : PrimTy → Value → Prop
  | .string, v => ∃ s, v = .String (.owned s)
  | .borrowedStr, v => ∃ s, v = .String (.borrowed s)
  | t, v => v.kind = t.variantName

/-! ## Claims -/

/-- The source text of the scanner examples. -/
def c3src : List Char := ['1', '2', '3', '4', '5', '6', '7', '8', '9']

/-- C3: over `"123456789"`, `take(1)`+`selection()` yields Char `'1'` then
Char `'2'`; `take(3)`+`selection()` yields Slice `"345"`; `selection()`
with nothing taken yields Empty; `take(4)`+`selection()` yields Slice
`"6789"`; `take(1)`+`selection()` yields EndOfFile; and `selection()`
always advances the cursor past the attempted span, success or not. -/
theorem claim_C3_thm :
    ((Scanner.new c3src).take 1).selection
        = (Selection.Char '1', ⟨c3src, Cursor.Index 1⟩) ∧
      (Scanner.take ⟨c3src, Cursor.Index 1⟩ 1).selection
        = (Selection.Char '2', ⟨c3src, Cursor.Index 2⟩) ∧
      (Scanner.take ⟨c3src, Cursor.Index 2⟩ 3).selection
        = (Selection.Slice ['3', '4', '5'], ⟨c3src, Cursor.Index 5⟩) ∧
      Scanner.selection ⟨c3src, Cursor.Index 5⟩
        = (Selection.Empty, ⟨c3src, Cursor.Index 5⟩) ∧
      (Scanner.take ⟨c3src, Cursor.Index 5⟩ 4).selection
        = (Selection.Slice ['6', '7', '8', '9'], ⟨c3src, Cursor.Index 9⟩) ∧
      (Scanner.take ⟨c3src, Cursor.Index 9⟩ 1).selection
        = (Selection.EndOfFile, ⟨c3src, Cursor.Index 10⟩) ∧
      ∀ sc : Scanner,
        (sc.selection).2.cursor = Cursor.Index (sc.cursor.index + sc.cursor.len) := by
  refine ⟨by decide, by decide, by decide, by decide, by decide, by decide, ?_⟩
  intro sc
  rcases sc with ⟨src, c⟩
  cases c <;> simp [Scanner.selection, Cursor.advance, Cursor.index, Cursor.len]

/-- C4 counterexample: `extend(0)` from the freshly created cursor is a
reachable call sequence producing the zero-length `Slice` state, whose
`len` is `0` although it is not the `Index` state. -/
theorem claim_C4_cex :
    applyOps [CursorOp.ext 0] = Cursor.Slice 0 0 ∧
      (applyOps [CursorOp.ext 0]).len = 0 ∧
      ∀ i, applyOps [CursorOp.ext 0] ≠ Cursor.Index i := by
  refine ⟨by decide, by decide, ?_⟩
  intro i
  have h : applyOps [CursorOp.ext 0] = Cursor.Slice 0 0 := by decide
  rw [h]
  intro hc
  exact Cursor.noConfusion hc

theorem applyOp_inv {c : Cursor} {op : CursorOp}
    (hop : ∀ n, op = CursorOp.ext n → 1 ≤ n) :
    (applyOp c op).len = 0 → ∃ i, applyOp c op = Cursor.Index i := by
  cases op with
  | adv =>
    cases c <;> simp [applyOp, Cursor.advance]
  | ext n =>
    have hn : 1 ≤ n := hop n rfl
    cases c with
    | Index i =>
      by_cases h1 : n = 1
      · subst h1
        simp [applyOp, Cursor.extend, Cursor.len]
      · simp [applyOp, Cursor.extend, h1, Cursor.len]
        omega
    | Char i =>
      simp [applyOp, Cursor.extend, Cursor.len]
    | Slice i l =>
      simp [applyOp, Cursor.extend, Cursor.len]
      omega

theorem foldl_applyOp_inv :
    ∀ (ops : List CursorOp) (c : Cursor),
      (∀ n, CursorOp.ext n ∈ ops → 1 ≤ n) →
      (c.len = 0 → ∃ i, c = Cursor.Index i) →
      ((ops.foldl applyOp c).len = 0 → ∃ i, ops.foldl applyOp c = Cursor.Index i) := by
  intro ops
  induction ops with
  | nil => intro c _ hc; exact hc
  | cons op rest ih =>
    intro c hops hc
    simp only [List.foldl_cons]
    refine ih (applyOp c op) (fun n hn => hops n (by simp [hn])) ?_
    exact applyOp_inv (fun n hop => hops n (by simp [hop]))

/-- C4 amended: for every cursor reachable from `Cursor::new` by `advance`
and `extend` calls whose counts are all at least 1, `len() = 0` holds only
in the `Index` state; `extend(0)`, however, can produce a zero-length
`Slice` (see the counterexample). -/
theorem claim_C4_thm (ops : List CursorOp)
    (h : ∀ n, CursorOp.ext n ∈ ops → 1 ≤ n) :
    (applyOps ops).len = 0 → ∃ i, applyOps ops = Cursor.Index i := by
  unfold applyOps
  exact foldl_applyOp_inv ops Cursor.new h (fun _ => ⟨0, rfl⟩)

/-- Witness for the amended C4 at the call sequence
`extend 2; advance`. -/
theorem claim_C4_witness :
    ∃ i, applyOps [CursorOp.ext 2, CursorOp.adv] = Cursor.Index i := by
  refine claim_C4_thm [CursorOp.ext 2, CursorOp.adv] ?_ (by decide)
  intro n hn
  simp at hn
  omega

/-- C5: `extend` maps `Index(i)` to `Char(i)` for count 1 and to
`Slice(i, count)` otherwise, `Char(i)` to `Slice(i, 1+count)`, and
`Slice(i, L)` to `Slice(i, L+count)`, never changing the index; `advance`
maps `Char(i)` to `Index(i+1)`, `Slice(i, L)` to `Index(i+L)` and leaves
`Index` unchanged; and the documented call sequence from a fresh cursor
passes through exactly the listed states. -/
theorem claim_C5_thm :
    (∀ i, Cursor.extend (Cursor.Index i) 1 = Cursor.Char i) ∧
      (∀ i count, count ≠ 1 → Cursor.extend (Cursor.Index i) count = Cursor.Slice i count) ∧
      (∀ i count, Cursor.extend (Cursor.Char i) count = Cursor.Slice i (1 + count)) ∧
      (∀ i L count, Cursor.extend (Cursor.Slice i L) count = Cursor.Slice i (L + count)) ∧
      (∀ c count, (Cursor.extend c count).index = c.index) ∧
      (∀ i, Cursor.advance (Cursor.Char i) = Cursor.Index (i + 1)) ∧
      (∀ i L, Cursor.advance (Cursor.Slice i L) = Cursor.Index (i + L)) ∧
      (∀ i, Cursor.advance (Cursor.Index i) = Cursor.Index i) ∧
      Cursor.extend Cursor.new 2 = Cursor.Slice 0 2 ∧
      Cursor.extend (Cursor.Slice 0 2) 3 = Cursor.Slice 0 5 ∧
      Cursor.advance (Cursor.Slice 0 5) = Cursor.Index 5 ∧
      Cursor.extend (Cursor.Index 5) 1 = Cursor.Char 5 ∧
      Cursor.extend (Cursor.Char 5) 1 = Cursor.Slice 5 2 ∧
      Cursor.extend (Cursor.Slice 5 2) 3 = Cursor.Slice 5 5 ∧
      Cursor.advance (Cursor.Slice 5 5) = Cursor.Index 10 := by
  refine ⟨fun i => by simp [Cursor.extend], fun i count h => by simp [Cursor.extend, h],
    fun i count => rfl, fun i L count => rfl, ?_,
    fun i => rfl, fun i L => rfl, fun i => rfl,
    by decide, by decide, by decide, by decide, by decide, by decide, by decide⟩
  intro c count
  cases c with
  | Index i =>
    show (if count = 1 then Cursor.Char i else Cursor.Slice i count).index
      = (Cursor.Index i).index
    by_cases h1 : count = 1
    · rw [if_pos h1]
      rfl
    · rw [if_neg h1]
      rfl
  | Char i => rfl
  | Slice i L => rfl

/-- Witness for C5 at `extend 3` from `Index 7`. -/
theorem claim_C5_witness :
    Cursor.extend (Cursor.Index 7) 3 = Cursor.Slice 7 3 :=
  claim_C5_thm.2.1 7 3 (by decide)

open SourceBytes in
/-- C2: for every finite stream and every `n` within the stream's length,
`look(n)` returns `Some` of the first `n` bytes in order and subsequently
consuming `n` bytes via `next()` yields that same sequence; moreover
`buffer` never changes the remaining stream and `next` traverses it
front-to-back, so no byte is skipped, duplicated or reordered. -/
theorem claim_C2_thm (s : SourceBytes) (n : Nat) (h : n ≤ totalLen s) :
    (sbLook n s).1 = some ((streamOf s).take n) ∧
      (sbNextN n (sbLook n s).2).1 = (streamOf s).take n ∧
      (∀ t m, streamOf (sbBuffer m t).2 = streamOf t) ∧
      (∀ t k, (sbNextN k t).1 = (streamOf t).take k ∧
        streamOf (sbNextN k t).2 = (streamOf t).drop k) := by
  refine ⟨sbBuffer_fst_of_le h, ?_, fun t m => sbBuffer_stream m t, fun t k => sbNextN_spec k t⟩
  have h1 := (sbNextN_spec n (sbLook n s).2).1
  rw [h1]
  unfold sbLook
  rw [sbBuffer_stream]

open SourceBytes in
/-- Witness for C2 at the stream `[1, 2, 3]` with `n = 2`. -/
theorem claim_C2_witness :
    (sbLook 2 ⟨[1, 2, 3], []⟩).1 = some [1, 2] ∧
      (sbNextN 2 (sbLook 2 ⟨[1, 2, 3], []⟩).2).1 = [1, 2] := by
  have h := claim_C2_thm ⟨[1, 2, 3], []⟩ 2 (by decide)
  exact ⟨h.1, h.2.1⟩

open SourceBytes in
/-- C6: byte-level buffering is idempotent: once `buffer(n)` has
succeeded, `buffer(m)` for any `m ≤ n` leaves the state untouched (no
further pulls from the underlying iterator) and returns the prefix of the
earlier view; and two consecutive `peek()` calls with no consuming
operation between them return equal values. -/
theorem claim_C6_thm (s : SourceBytes) (n m : Nat) (buf : List Nat) (s' : SourceBytes)
    (hsb : sbBuffer n s = (some buf, s')) (hm : m ≤ n) :
    sbBuffer m s' = (some (buf.take m), s') ∧
      (∀ t b t', sbPeek t = (some b, t') → sbPeek t' = (some b, t')) := by
  have hle : n ≤ totalLen s := by
    by_contra hc
    have := sbBuffer_fst_of_gt (Nat.lt_of_not_le hc)
    rw [hsb] at this
    simp at this
  have hsnd : s' = (sbBuffer n s).2 := by rw [hsb]
  have hbuflen : n ≤ s'.buffer.length := by
    rw [hsnd]
    exact sbBuffer_buffer_of_le hle
  have hbufval : buf = s'.buffer.take n := by
    have := sbBuffer_fst_eq_take hle
    rw [hsb] at this
    simpa [← hsnd] using this
  constructor
  · rw [sbBuffer_of_buffer_le (Nat.le_trans hm hbuflen)]
    rw [hbufval, List.take_take, Nat.min_eq_left hm]
  · intro t b t' hp
    unfold sbPeek at hp ⊢
    rcases htb : sbBuffer 1 t with ⟨r, t2⟩
    rw [htb] at hp
    cases r with
    | none => simp at hp
    | some slice =>
      simp only at hp
      have ht2 : t2 = t' := congrArg Prod.snd hp
      have hhead : slice.head? = some b := congrArg Prod.fst hp
      have hle1 : 1 ≤ totalLen t := by
        by_contra hc
        have := sbBuffer_fst_of_gt (Nat.lt_of_not_le hc)
        rw [htb] at this
        simp at this
      have hbl : 1 ≤ t'.buffer.length := by
        rw [← ht2, show t2 = (sbBuffer 1 t).2 by rw [htb]]
        exact sbBuffer_buffer_of_le hle1
      have hsv : slice = t'.buffer.take 1 := by
        have h3 := sbBuffer_fst_eq_take hle1
        rw [htb] at h3
        rw [← ht2]
        simpa using h3
      rw [sbBuffer_of_buffer_le hbl]
      simp only
      rw [← hsv, hhead]

open SourceBytes in
/-- Witness for C6: after `buffer(2)` on the stream `[5, 6, 7]`, a further
`buffer(1)` pulls nothing and returns the one-byte prefix of the earlier
view. -/
theorem claim_C6_witness :
    sbBuffer 1 ⟨[7], [5, 6]⟩ = (some [5], ⟨[7], [5, 6]⟩) := by
  have h := claim_C6_thm ⟨[5, 6, 7], []⟩ 2 1 [5, 6] ⟨[7], [5, 6]⟩ (by decide) (by decide)
  simpa using h.1

open SourceBytes in
/-- C10: a zero-length lookahead always succeeds with an empty view, even
on an exhausted source, at both the byte level and the character level;
absence is reported only for requests of at least one item. -/
theorem claim_C10_thm (s : SourceBytes) :
    sbBuffer 0 s = (some [], s) ∧ scBuffer 0 s = (some [], s) := by
  have hb : sbBuffer 0 s = (some [], s) := by
    have := sbBuffer_of_buffer_le (Nat.zero_le s.buffer.length)
    simpa using this
  refine ⟨hb, ?_⟩
  unfold scBuffer
  rw [show totalLen s + 2 = (totalLen s + 1) + 1 by omega]
  simp [scBufferAux, hb, utf8DecodeFull_nil]

theorem utf8Encode_length_ge (cs : List Nat) : cs.length ≤ (utf8Encode cs).length := by
  induction cs with
  | nil => simp [utf8Encode]
  | cons c cs ih =>
    have h1 : 1 ≤ (utf8EncodeChar c).length := by
      cases henc : utf8EncodeChar c with
      | nil => exact absurd henc (utf8EncodeChar_ne_nil c)
      | cons a l => simp
    simp only [utf8Encode, List.length_append, List.length_cons]
    omega

open SourceBytes in
/-- C1: character-level `look(3)` over the bytes of `"abcdefg"` returns the
window `"abc"`, after which draining the decoder still yields all seven
characters in order; and in general decoding the encoding of any sequence
of scalar values character-by-character reproduces that sequence, so
concatenating the decoded characters reproduces the input exactly. -/
theorem claim_C1_thm :
    (scLook 3 ⟨[97, 98, 99, 100, 101, 102, 103], []⟩).1 = some [97, 98, 99] ∧
      scDrain 7 (scLook 3 ⟨[97, 98, 99, 100, 101, 102, 103], []⟩).2
        = [97, 98, 99, 100, 101, 102, 103] ∧
      ∀ cs : List Nat, (∀ c ∈ cs, ValidScalar c) →
        scDrain (utf8Encode cs).length ⟨utf8Encode cs, []⟩ = cs := by
  refine ⟨by decide, by decide, ?_⟩
  intro cs hv
  exact scDrain_encode cs (utf8Encode cs).length ⟨utf8Encode cs, []⟩ hv
    (by simp [streamOf]) (utf8Encode_length_ge cs)

open SourceBytes in
/-- Witness for C1 on the two-character input `"hé"` (code points 104 and
233, whose encoding is multi-byte). -/
theorem claim_C1_witness :
    scDrain (utf8Encode [104, 233]).length ⟨utf8Encode [104, 233], []⟩ = [104, 233] :=
  claim_C1_thm.2.2 [104, 233] (by decide)

open SourceBytes in
/-- C7: the character-level `buffer(count)` loop terminates for every
source and count: its result is stable under any surplus of loop fuel, and
it returns either `Some` of a window that is valid UTF-8 with at least
`count` characters, or `None` after the byte layer has stopped growing, in
which case no window within the remaining stream is valid UTF-8 with at
least `count` characters. -/
theorem claim_C7_thm (s : SourceBytes) (count : Nat) :
    ((∃ buf s' cps, scBuffer count s = (some buf, s') ∧
        utf8DecodeFull buf = some cps ∧ count ≤ cps.length) ∨
      ((scBuffer count s).1 = none ∧
        ∀ k ≤ totalLen s, ¬ GoodWindow count (streamOf s) k)) ∧
      ∀ extra, scBufferAux count 0 (totalLen s + 2 + extra) s = scBuffer count s := by
  constructor
  · have h := scBufferAux_spec count (totalLen s + 2) 0 s (by omega)
      (fun k hk _ => absurd hk (Nat.not_lt_zero k))
    unfold scBuffer
    exact h
  · intro extra
    unfold scBuffer
    exact scBufferAux_fuel_stable count (totalLen s + 2 + extra) (totalLen s + 2) 0 s
      (by omega) (by omega) (by omega) (by omega)

open SourceBytes in
/-- Witness for C7 at the one-byte source `[97]` with `count = 1` and 5
surplus fuel. -/
theorem claim_C7_witness :
    scBufferAux 1 0 (totalLen ⟨[97], []⟩ + 2 + 5) ⟨[97], []⟩ = scBuffer 1 ⟨[97], []⟩ :=
  (claim_C7_thm ⟨[97], []⟩ 1).2 5

open SourceBytes in
/-- C9: when no prefix of the next `min(4, remaining)` bytes is valid
UTF-8 (for example a stream beginning with `0xFF`), `SourceChars::next`
returns nothing after consuming exactly `min(4, remaining)` bytes from the
underlying source, silently discarding them. -/
theorem claim_C9_thm (s : SourceBytes)
    (h : ∀ i, i < min 4 (totalLen s) →
      utf8DecodeFull ((streamOf s).take (i + 1)) = none) :
    (scNext s).1 = none ∧
      streamOf (scNext s).2 = (streamOf s).drop (min 4 (totalLen s)) := by
  have htl : totalLen s = (streamOf s).length := rfl
  rcases hst : streamOf s with _ | ⟨b0, rest0⟩
  · have hres : scNext s = (none, s) := scNext_of_stream_nil hst
    rw [hres, htl, hst]
    exact ⟨rfl, by simp [hst]⟩
  · obtain ⟨s1, hn1, hs1⟩ := sbNext_of_stream_cons hst
    have hd0 : utf8DecodeFull [b0] = none := by
      have := h 0 (by rw [htl, hst]; simp)
      rwa [hst, List.take_succ_cons, List.take_zero] at this
    rcases hst1 : rest0 with _ | ⟨b1, rest1⟩
    · have hres : scNext s = (none, s1) := by
        unfold scNext scNextAux
        rw [hn1]
        simp only [List.nil_append, hd0]
        unfold scNextAux
        rw [sbNext_of_stream_nil (by rw [hs1, hst1])]
      rw [hres, htl, hst, hst1]
      exact ⟨rfl, by rw [hs1, hst1]; simp⟩
    · subst hst1
      obtain ⟨s2, hn2, hs2⟩ := sbNext_of_stream_cons hs1
      have hd1 : utf8DecodeFull [b0, b1] = none := by
        have := h 1 (by rw [htl, hst]; simp)
        rwa [hst, List.take_succ_cons, List.take_succ_cons, List.take_zero] at this
      rcases hst2 : rest1 with _ | ⟨b2, rest2⟩
      · have hres : scNext s = (none, s2) := by
          unfold scNext scNextAux
          rw [hn1]
          simp only [List.nil_append, hd0]
          unfold scNextAux
          rw [hn2]
          simp only [List.cons_append, List.nil_append, hd1]
          unfold scNextAux
          rw [sbNext_of_stream_nil (by rw [hs2, hst2])]
        rw [hres, htl, hst, hst2]
        exact ⟨rfl, by rw [hs2, hst2]; simp⟩
      · subst hst2
        obtain ⟨s3, hn3, hs3⟩ := sbNext_of_stream_cons hs2
        have hd2 : utf8DecodeFull [b0, b1, b2] = none := by
          have := h 2 (by rw [htl, hst]; simp)
          rwa [hst, List.take_succ_cons, List.take_succ_cons, List.take_succ_cons,
            List.take_zero] at this
        rcases hst3 : rest2 with _ | ⟨b3, rest3⟩
        · have hres : scNext s = (none, s3) := by
            unfold scNext scNextAux
            rw [hn1]
            simp only [List.nil_append, hd0]
            unfold scNextAux
            rw [hn2]
            simp only [List.cons_append, List.nil_append, hd1]
            unfold scNextAux
            rw [hn3]
            simp only [List.cons_append, List.nil_append, hd2]
            unfold scNextAux
            rw [sbNext_of_stream_nil (by rw [hs3, hst3])]
          rw [hres, htl, hst, hst3]
          exact ⟨rfl, by rw [hs3, hst3]; simp⟩
        · subst hst3
          obtain ⟨s4, hn4, hs4⟩ := sbNext_of_stream_cons hs3
          have hd3 : utf8DecodeFull [b0, b1, b2, b3] = none := by
            have := h 3 (by rw [htl, hst]; simp)
            rwa [hst, List.take_succ_cons, List.take_succ_cons, List.take_succ_cons,
              List.take_succ_cons, List.take_zero] at this
          have hres : scNext s = (none, s4) := by
            unfold scNext scNextAux
            rw [hn1]
            simp only [List.nil_append, hd0]
            unfold scNextAux
            rw [hn2]
            simp only [List.cons_append, List.nil_append, hd1]
            unfold scNextAux
            rw [hn3]
            simp only [List.cons_append, List.nil_append, hd2]
            unfold scNextAux
            rw [hn4]
            simp only [List.cons_append, List.nil_append, hd3]
            rfl
          rw [hres, htl, hst]
          refine ⟨rfl, ?_⟩
          rw [hs4]
          simp

open SourceBytes in
/-- Witness for C9: the stream `FF 61 62 63 64` has no valid UTF-8 prefix
among its first four bytes, so `next()` yields nothing and discards the
invalid byte together with the three valid bytes `a b c`, leaving only
`64`. -/
theorem claim_C9_witness :
    (scNext ⟨[255, 97, 98, 99, 100], []⟩).1 = none ∧
      streamOf (scNext ⟨[255, 97, 98, 99, 100], []⟩).2 = [100] := by
  have h := claim_C9_thm ⟨[255, 97, 98, 99, 100], []⟩ (by decide)
  simpa using h

/-- C8 counterexample: `Value::String(Cow::Borrowed("x"))` has the variant
`String`, which matches the requested type `String`, yet
`into_inner::<String>` rejects it (only `Cow::Owned` succeeds), so success
is not exactly "the stored variant matches the requested type". -/
theorem claim_C8_cex :
    Value.intoInner PrimTy.string (Value.String (Cow.borrowed "x"))
        = Except.error ⟨"String", "String"⟩ ∧
      (Value.String (Cow.borrowed "x")).kind = PrimTy.variantName PrimTy.string := by
  exact ⟨rfl, rfl⟩

/-- C8 amended: every supported conversion round-trips
(`into_inner::<T>(Value::from(x)) = Ok(x)`), and `into_inner::<T>(v)`
succeeds exactly when the stored variant matches the requested type,
except for the two string targets, where the cow's ownership must also
match: `String` requires an owned cow and `&str` a borrowed one; every
failure returns an `IntoInnerError`. -/
theorem claim_C8_thm :
    (∀ (t : PrimTy) (x : t.carrier), Value.intoInner t (Value.fromPrim t x) = Except.ok x) ∧
      (∀ (t : PrimTy) (v : Value),
        (∃ x, Value.intoInner t v = Except.ok x) ↔ VariantAgrees t v) := by
  constructor
  · intro t x
    cases t <;> rfl
  · intro t v
    cases t <;> cases v <;> (try cases ‹Cow›) <;>
      simp [Value.intoInner, Value.kind, PrimTy.variantName, VariantAgrees]

/-- Witness for C8: the owned-string round-trip. -/
theorem claim_C8_witness :
    Value.intoInner PrimTy.string (Value.fromPrim PrimTy.string "foo")
      = Except.ok "foo" :=
  claim_C8_thm.1 PrimTy.string "foo"
